import Mathlib

/-!
# Verification of the blooky reactive-stream core (src/blooky.ts)

A shallow embedding of the push-based FRP engine: stream nodes with
`functor`/`filter`/`next`/`lazyNext`/`observers`/`updates`, the
propagation functions `flow` / `flowLazy`, the two-phase injection
entry point `drip` with its reentrancy guard, and the combinators
`merge`, `hold`, `listen`, `pipe`, `shed`, `clear`.

Design of the embedding:
* Values are a first-order inductive `Val` (numbers, arrays, stream
  references) so that propagation results are decidably comparable.
* Node functors and filters are Lean functions `Val → Except Unit Val`
  (resp. `Except Unit Bool`); a `.error` result models a thrown
  exception.
* JavaScript `Set`s iterate in insertion order and deduplicate by
  object identity; edge sets are modelled as duplicate-free lists with
  `addSet` / `List.erase`, observer and update registrations (always
  fresh closures in the source) as list append.
* The only mutable cells in the core are the ones captured by `hold`
  closures; the machine therefore carries a heap `CellId → Val`, and a
  node's `updates` set is the list of cell ids its hold-sinks write.
* Observers are a small act language (`Obs`): logging, synchronously
  reading a held property, reentrantly calling `drip`, throwing, and
  `shed`'s rewiring callback.  Executing acts yields a trace of events.
* Unbounded recursion in the source (`flow` over a cyclic `next` graph,
  `flowLazy` over cyclic merge chains, `clear`, reentrant `drip`) is
  modelled with fuel.  A stack overflow inside `flow` is caught by
  `flow`'s own try/catch (empty state), while one inside `flowLazy`'s
  merge recursion escapes to `drip`'s catch, exactly as in the source.
-/

namespace Blooky

abbrev NodeId := Nat
abbrev CellId := Nat

/-- Propagated values: numbers, arrays (merge inputs), stream references
(for `shed`'s stream-of-streams). -/
inductive Val where
  | nat (n : Nat)
  | arr (l : List Val)
  | node (id : NodeId)

mutual

def Val.decEq : (a b : Val) → Decidable (a = b)
  | .nat a, .nat b =>
    match Nat.decEq a b with
    | .isTrue h => .isTrue (by rw [h])
    | .isFalse h => .isFalse (fun e => h (Val.nat.inj e))
  | .arr a, .arr b =>
    match Val.decEqList a b with
    | .isTrue h => .isTrue (by rw [h])
    | .isFalse h => .isFalse (fun e => h (Val.arr.inj e))
  | .node a, .node b =>
    match Nat.decEq a b with
    | .isTrue h => .isTrue (by rw [h])
    | .isFalse h => .isFalse (fun e => h (Val.node.inj e))
  | .nat _, .arr _ => .isFalse (fun e => Val.noConfusion e)
  | .nat _, .node _ => .isFalse (fun e => Val.noConfusion e)
  | .arr _, .nat _ => .isFalse (fun e => Val.noConfusion e)
  | .arr _, .node _ => .isFalse (fun e => Val.noConfusion e)
  | .node _, .nat _ => .isFalse (fun e => Val.noConfusion e)
  | .node _, .arr _ => .isFalse (fun e => Val.noConfusion e)

def Val.decEqList : (a b : List Val) → Decidable (a = b)
  | [], [] => .isTrue rfl
  | [], _ :: _ => .isFalse (fun e => List.noConfusion e)
  | _ :: _, [] => .isFalse (fun e => List.noConfusion e)
  | x :: xs, y :: ys =>
    match Val.decEq x y with
    | .isFalse h => .isFalse (fun e => h (List.cons.inj e).1)
    | .isTrue h1 =>
      match Val.decEqList xs ys with
      | .isTrue h2 => .isTrue (by rw [h1, h2])
      | .isFalse h => .isFalse (fun e => h (List.cons.inj e).2)

end

instance : DecidableEq Val := Val.decEq

/-- Observer callbacks registered on a node, as a small act language.
Each constructor is one observer function from the source idioms:
`listen` logging callbacks, callbacks that synchronously read a held
property, callbacks that reentrantly call `drip`, throwing callbacks,
and `shed`'s rewiring callback `(s)=>{p().next.delete(o); s.next.add(o)}`. -/
inductive Obs where
  | log (tag : Nat)
  | readCell (c : CellId)
  | dripInto (t : NodeId)
  | throwErr
  | shedSwitch (p : CellId) (o : NodeId)
  deriving DecidableEq

/-- One stream node: `StreamState` from the source.  `updates` is the
list of heap cells written by the hold-sinks registered on this node
(each sink `(_v)=>v=_v` writes its captured cell). -/
structure Node where
  functor : Val → Except Unit Val
  filter : Option (Val → Except Unit Bool)
  next : List NodeId
  lazyNext : List NodeId
  observers : List Obs
  updates : List CellId

/-- The mutable stream graph. -/
abbrev Graph := NodeId → Node

/-- `FlowingState` from the source: pending merge pairs, observer thunks
(observer paired with the value the thunk closes over), update thunks
(cell paired with the value to be written). -/
structure FlowingState where
  waiting : List (NodeId × Val)
  observers : List (Obs × Val)
  updates : List (CellId × Val)
  deriving DecidableEq

def emptyFS : FlowingState := ⟨[], [], []⟩

/-- `concatFlowingState` from the source. -/
def concatFS (a b : FlowingState) : FlowingState :=
  ⟨a.waiting ++ b.waiting, a.observers ++ b.observers, a.updates ++ b.updates⟩

/-- `streamToFlowingState` from the source: a node's own contribution,
all components bound to the functor result `r`. -/
def streamToFS (r : Val) (nd : Node) : FlowingState :=
  ⟨nd.lazyNext.map (fun t => (t, r)),
   nd.observers.map (fun o => (o, r)),
   nd.updates.map (fun c => (c, r))⟩

/-- JS `Set.add`: append if not already present (insertion order kept). -/
def addSet (l : List NodeId) (a : NodeId) : List NodeId :=
  if a ∈ l then l else l ++ [a]

/-- Pointwise graph update. -/
def updateG (g : Graph) (n : NodeId) (f : Node → Node) : Graph :=
  fun i => if i = n then f (g i) else g i

/-- The identity functor (`parrot` in the source). -/
def parrotF : Val → Except Unit Val := fun v => .ok v

/-- An inert node as produced by `stream()`: identity functor,
no filter, empty edge and sink sets. -/
def blankNode : Node := ⟨parrotF, none, [], [], [], []⟩

/-- Evaluating a child's filter against the parent's functor result:
absent filter accepts (`!s[STREAM_FILTER] || s[STREAM_FILTER](r)`). -/
def acceptChild (g : Graph) (r : Val) (c : NodeId) : Except Unit Bool :=
  match (g c).filter with
  | none => .ok true
  | some p => p r

/-- `[...s.next].filter(...)`: evaluate every child's filter predicate
left to right; any thrown predicate aborts the whole selection (the
exception reaches the parent's own catch). -/
def acceptedChildren (g : Graph) (r : Val) : List NodeId → Except Unit (List NodeId)
  | [] => .ok []
  | c :: cs => do
    let b ← acceptChild g r c
    let rest ← acceptedChildren g r cs
    pure (if b then c :: rest else rest)

/-- `flow` from the source: apply the functor, select children by
filter, recurse, and fold all child states onto this node's own
contribution.  The per-node try/catch makes a functor or filter
exception (and, in the source, a stack overflow in the recursion,
modelled by fuel 0) yield an empty state for this subtree only. -/
def flow : Nat → Val → NodeId → Graph → FlowingState
  | 0, _, _, _ => emptyFS
  | fuel + 1, v, s, g =>
    match (g s).functor v with
    | .error _ => emptyFS
    | .ok r =>
      match acceptedChildren g r (g s).next with
      | .error _ => emptyFS
      | .ok kids =>
        (kids.map (fun c => flow fuel r c g)).foldl concatFS (streamToFS r (g s))

/-- The insertion step of `flowLazy`'s `Map`-based grouping: `m.set(s,
m.has(s) ? [...m.get(s)!, v] : [v])` — append to an existing key's
group in place, otherwise add a new key at the end. -/
def insertPair (acc : List (NodeId × List Val)) (s : NodeId) (v : Val) :
    List (NodeId × List Val) :=
  match acc with
  | [] => [(s, [v])]
  | (t, vs) :: rest =>
    if t = s then (t, vs ++ [v]) :: rest else (t, vs) :: insertPair rest s v

/-- Group pending merge pairs by target node, in arrival order. -/
def groupWaiting (l : List (NodeId × Val)) : List (NodeId × List Val) :=
  l.foldl (fun acc p => insertPair acc p.1 p.2) []

/-- `flowLazy` from the source: run `flow`, group the pending merge
pairs, and recurse once per group with the grouped array as the value.
There is no catch here: exhausting the merge recursion (a lazy cycle —
a stack overflow in the source) escapes to `drip`. -/
def flowLazy : Nat → Val → NodeId → Graph → Except Unit FlowingState
  | 0, _, _, _ => .error ()
  | fuel + 1, v, s, g =>
    let r := flow (fuel + 1) v s g
    if r.waiting = [] then .ok r
    else do
      let subs ← (groupWaiting r.waiting).mapM (fun p => flowLazy fuel (.arr p.2) p.1 g)
      pure (subs.foldl concatFS ⟨[], r.observers, r.updates⟩)

/-! ## The effectful machine: heap, guard flag, observer execution, `drip` -/

/-- Machine state: the stream graph, the heap of cells captured by
`hold` closures, and the process-wide `drip.observerPhase` flag. -/
structure Machine where
  graph : Graph
  heap : CellId → Val
  observerPhase : Bool

/-- Externally visible events produced during the observer phase. -/
inductive Ev where
  | logged (tag : Nat) (v : Val)
  | readSeen (c : CellId) (v : Val)
  deriving DecidableEq

/-- Errors of the injection entry point: the synchronous reentrancy
throw, and fuel exhaustion of the reentrancy recursion (unreachable in
guarded runs; present so the recursion is total). -/
inductive DripErr where
  | reentrant
  | fuelOut
  deriving DecidableEq

/-- Result of one effectful step: outcome, final machine, event trace. -/
structure StepOut (ε : Type) where
  res : Except ε Unit
  mach : Machine
  evs : List Ev

/-- Outcome of a whole `drip` call. -/
structure DripOut where
  res : Except DripErr FlowingState
  mach : Machine
  evs : List Ev

/-- Run the update thunks: each hold-sink writes the bound value to its
cell (`(_v)=>v=_v`).  These callbacks cannot throw. -/
def applyUpdatesHeap (l : List (CellId × Val)) (h : CellId → Val) : CellId → Val :=
  l.foldl (fun hh p => fun c => if c = p.1 then p.2 else hh c) h

/-- Execute one observer callback on the event value it was bound to.
`drp` is the injection entry point, passed in for the reentrant case. -/
def runAct (drp : NodeId → Val → Machine → DripOut) (o : Obs) (v : Val)
    (m : Machine) : StepOut Unit :=
  match o with
  | .log t => ⟨.ok (), m, [.logged t v]⟩
  | .readCell c => ⟨.ok (), m, [.readSeen c (m.heap c)]⟩
  | .throwErr => ⟨.error (), m, []⟩
  | .dripInto t =>
    let d := drp t v m
    match d.res with
    | .error _ => ⟨.error (), d.mach, d.evs⟩
    | .ok _ => ⟨.ok (), d.mach, d.evs⟩
  | .shedSwitch p o =>
    match m.heap p with
    | .node cur =>
      let g1 := updateG m.graph cur (fun nd => { nd with next := nd.next.erase o })
      match v with
      | .node sNew =>
        let g2 := updateG g1 sNew (fun nd => { nd with next := addSet nd.next o })
        ⟨.ok (), { m with graph := g2 }, []⟩
      | _ => ⟨.error (), { m with graph := g1 }, []⟩
    | _ => ⟨.error (), m, []⟩

/-- `state.observers.forEach(f => f())`: run the thunks left to right;
a thrown observer aborts the iteration and the exception propagates. -/
def runActsWith (drp : NodeId → Val → Machine → DripOut) :
    List (Obs × Val) → Machine → StepOut Unit
  | [], m => ⟨.ok (), m, []⟩
  | (o, v) :: rest, m =>
    let r := runAct drp o v m
    match r.res with
    | .error e => ⟨.error e, r.mach, r.evs⟩
    | .ok _ =>
      let r2 := runActsWith drp rest r.mach
      ⟨r2.res, r2.mach, r.evs ++ r2.evs⟩

/-- `drip` from the source.  Guard check (throws synchronously when
inside an observer phase, leaving the state untouched), pure phase
(`flowLazy`), observer phase under the raised guard, update phase.
The catch handler turns any error escaping the pure or observer phase
into a logged empty result with the guard reset.  The `fuel` bounds the
reentrant recursion through observers. -/
def dripGo : Nat → NodeId → Val → Machine → DripOut
  | 0, _, _, m => ⟨.error .fuelOut, m, []⟩
  | fuel + 1, s, v, m =>
    if m.observerPhase then ⟨.error .reentrant, m, []⟩
    else
      match flowLazy (fuel + 1) v s m.graph with
      | .error _ => ⟨.ok emptyFS, { m with observerPhase := false }, []⟩
      | .ok st =>
        let a := runActsWith (dripGo fuel) st.observers { m with observerPhase := true }
        match a.res with
        | .error _ => ⟨.ok emptyFS, { a.mach with observerPhase := false }, a.evs⟩
        | .ok _ =>
          let m2 := { a.mach with observerPhase := false }
          ⟨.ok st, { m2 with heap := applyUpdatesHeap st.updates m2.heap }, a.evs⟩

/-- Observer execution at a definite reentrancy depth. -/
def runActs (fuel : Nat) : List (Obs × Val) → Machine → StepOut Unit :=
  runActsWith (dripGo fuel)

/-! ## Graph-building combinators -/

/-- `merge(sources)(combine)`: a fresh node whose functor rejects empty
arrays and otherwise left-folds the array with `combine`; the node is
added to every source's `lazyNext`. -/
def mergeFunctor (f : Val → Val → Val) : Val → Except Unit Val := fun v =>
  match v with
  | .arr [] => .error ()
  | .arr (x :: xs) => .ok (xs.foldl f x)
  | _ => .error ()

def mergeNode (f : Val → Val → Val) : Node :=
  { blankNode with functor := mergeFunctor f }

def mergeBuild (srcs : List NodeId) (f : Val → Val → Val) (nid : NodeId)
    (g : Graph) : Graph :=
  srcs.foldl
    (fun gg s => updateG gg s (fun nd => { nd with lazyNext := addSet nd.lazyNext nid }))
    (updateG g nid (fun _ => mergeNode f))

/-- `pipe(s)(f)`: a fresh node with functor `f`, added to `s.next`. -/
def pipeBuild (s : NodeId) (f : Val → Except Unit Val) (nid : NodeId)
    (g : Graph) : Graph :=
  updateG (updateG g nid (fun _ => { blankNode with functor := f })) s
    (fun nd => { nd with next := addSet nd.next nid })

/-- `hold(s)(init)`: seed cell `c` with `init` and register the
hold-sink on `s`; the property reader is `fun m => m.heap c`. -/
def holdOn (s : NodeId) (c : CellId) (init : Val) (m : Machine) : Machine :=
  { m with
    graph := updateG m.graph s (fun nd => { nd with updates := nd.updates ++ [c] }),
    heap := fun c' => if c' = c then init else m.heap c' }

/-- `listen(s)(f)`: register an observer callback on `s`. -/
def listenOn (s : NodeId) (o : Obs) (m : Machine) : Machine :=
  { m with graph := updateG m.graph s (fun nd => { nd with observers := nd.observers ++ [o] }) }

/-- `shed(ss)`: fresh output node `o` (a plain `stream()`), a property
cell `pc` holding the currently subscribed inner stream (seeded with
`o` itself), and the rewiring observer on `ss`. -/
def shedBuild (ss o : NodeId) (pc : CellId) (m : Machine) : Machine :=
  listenOn ss (.shedSwitch pc o)
    (holdOn ss pc (.node o) { m with graph := updateG m.graph o (fun _ => blankNode) })

/-! ## `clear` -/

/-- A node after `clear` reached it: all four sets emptied, functor and
filter untouched. -/
def wipeNode (nd : Node) : Node :=
  { nd with next := [], lazyNext := [], observers := [], updates := [] }

/-- `s.next.forEach(clear)`: clear each child in order, threading the
graph. -/
def clearListWith (f : NodeId → Graph → Option Graph) :
    List NodeId → Graph → Option Graph
  | [], g => some g
  | c :: cs, g => (f c g).bind (clearListWith f cs)

/-- `clear` from the source: recurse into the current `next` children,
then empty this node's own sets.  `lazyNext` children are *not*
recursed into.  Fuel exhaustion models the unguarded stack overflow on
a cyclic `next` graph. -/
def clearGo : Nat → NodeId → Graph → Option Graph
  | 0, _, _ => none
  | fuel + 1, n, g =>
    (clearListWith (clearGo fuel) (g n).next g).map (fun g' => updateG g' n wipeNode)

instance {ε α : Type} [DecidableEq ε] [DecidableEq α] : DecidableEq (Except ε α)
  | .ok a, .ok b =>
    match decEq a b with
    | .isTrue h => .isTrue (by rw [h])
    | .isFalse h => .isFalse (fun e => h (Except.ok.inj e))
  | .error a, .error b =>
    match decEq a b with
    | .isTrue h => .isTrue (by rw [h])
    | .isFalse h => .isFalse (fun e => h (Except.error.inj e))
  | .ok _, .error _ => .isFalse (fun e => Except.noConfusion e)
  | .error _, .ok _ => .isFalse (fun e => Except.noConfusion e)

/-! ## Basic algebra of flowing states -/

theorem concatFS_emptyFS_right (a : FlowingState) : concatFS a emptyFS = a := by
  simp [concatFS, emptyFS]

theorem concatFS_emptyFS_left (a : FlowingState) : concatFS emptyFS a = a := by
  simp [concatFS, emptyFS]

theorem mem_addSet_self (l : List NodeId) (a : NodeId) : a ∈ addSet l a := by
  unfold addSet
  split
  · assumption
  · simp

theorem mem_addSet_of_mem {l : List NodeId} {b : NodeId} (a : NodeId)
    (h : b ∈ l) : b ∈ addSet l a := by
  unfold addSet
  split
  · exact h
  · simp [h]

/-! ## Concrete scenario material shared by several claims -/

/-- The graph before any combinator ran: every id maps to a fresh
inert node. -/
def emptyGraph : Graph := fun _ => blankNode

/-- A sample `combine` argument for `merge`: numeric addition. -/
def addVal : Val → Val → Val
  | .nat a, .nat b => .nat (a + b)
  | a, _ => a

/-- A sample total functor: numeric doubling. -/
def doubleF : Val → Except Unit Val
  | .nat n => .ok (.nat (2 * n))
  | _ => .error ()

/-- A functor that always throws. -/
def throwF : Val → Except Unit Val := fun _ => .error ()

/-- A filter predicate that always throws. -/
def throwP : Val → Except Unit Bool := fun _ => .error ()

/-! ## C3: a pure-phase error aborts the whole `drip` call -/

/-- **C3.** For every `drip(s)(v)` call in which the pure-phase
computation `flowLazy(v)(s)` throws (an error escaping `flow`'s own
per-node catch — here, exhaustion of the unguarded merge recursion),
the whole call is aborted atomically: `drip` returns an empty
`FlowingState`, the machine is exactly as before the call (so the
reentrancy guard is false and no update ran), and the event trace is
empty (no observer ran). -/
theorem drip_pure_phase_error_aborts_call (fuel : Nat) (s : NodeId) (v : Val)
    (m : Machine) (hp : m.observerPhase = false)
    (hfl : flowLazy (fuel + 1) v s m.graph = .error ()) :
    dripGo (fuel + 1) s v m = ⟨.ok emptyFS, m, []⟩ := by
  obtain ⟨g, h, p⟩ := m
  simp only at hp
  subst hp
  simp only [dripGo, Bool.false_eq_true, if_false]
  simp only at hfl
  rw [hfl]

/-- A merge cycle: node 0 feeds merge node 1 whose `lazyNext` loops
back to itself, so `flowLazy`'s merge recursion never terminates (a
stack overflow in the source, fuel exhaustion here). -/
def lazyCycleGraph : Graph := fun i =>
  if i = 0 then { blankNode with lazyNext := [1] }
  else if i = 1 then { mergeNode addVal with lazyNext := [1] }
  else blankNode

def lazyCycleMachine : Machine := ⟨lazyCycleGraph, fun _ => .nat 0, false⟩

theorem drip_pure_phase_error_aborts_call_witness :
    dripGo 9 0 (.nat 5) lazyCycleMachine = ⟨.ok emptyFS, lazyCycleMachine, []⟩ :=
  drip_pure_phase_error_aborts_call 8 0 (.nat 5) lazyCycleMachine rfl (by decide)

/-! ## C5: reentrant `drip` throws; the guard is reset afterwards -/

/-- **C5.** A `drip` call made while the observer phase of another call
is running (the guard flag is up) throws synchronously and changes
nothing; equivalently, an observer that calls `drip` propagates that
throw. After any outer `drip` call that started with the guard down,
the guard is down again and the call returned normally — so a
subsequent, unrelated `drip` call passes the guard check and also
returns normally. -/
theorem drip_reentrancy_violation :
    (∀ (fuel : Nat) (t : NodeId) (w : Val) (m : Machine), m.observerPhase = true →
      dripGo (fuel + 1) t w m = ⟨.error .reentrant, m, []⟩) ∧
    (∀ (fuel : Nat) (t : NodeId) (w : Val) (m : Machine), m.observerPhase = true →
      runAct (dripGo fuel) (.dripInto t) w m = ⟨.error (), m, []⟩) ∧
    (∀ (fuel : Nat) (s : NodeId) (v : Val) (m : Machine), m.observerPhase = false →
      (dripGo (fuel + 1) s v m).mach.observerPhase = false ∧
      ∃ st, (dripGo (fuel + 1) s v m).res = .ok st) := by
  have guard : ∀ (fuel : Nat) (t : NodeId) (w : Val) (m : Machine),
      m.observerPhase = true → dripGo (fuel + 1) t w m = ⟨.error .reentrant, m, []⟩ := by
    intro fuel t w m hp
    simp [dripGo, hp]
  refine ⟨guard, ?_, ?_⟩
  · intro fuel t w m hp
    match fuel with
    | 0 => simp [runAct, dripGo]
    | fuel + 1 => simp [runAct, guard fuel t w m hp]
  · intro fuel s v m hp
    obtain ⟨g, h, p⟩ := m
    simp only at hp
    subst hp
    simp only [dripGo, Bool.false_eq_true, if_false]
    cases hfl : flowLazy (fuel + 1) v s g with
    | error e => simp
    | ok st =>
      simp only
      cases hobs : (runActsWith (dripGo fuel) st.observers ⟨g, h, true⟩).res with
      | error e => simp [hobs]
      | ok u => simp [hobs]

/-! ## C7: merge-node folding -/

theorem mergeBuild_functor_untouched (srcs : List NodeId) (nid : NodeId)
    (f : Val → Val → Val) (g : Graph) (i : NodeId) :
    ((mergeBuild srcs f nid g) i).functor =
      ((updateG g nid (fun _ => mergeNode f)) i).functor := by
  unfold mergeBuild
  generalize (updateG g nid (fun _ => mergeNode f)) = gg
  induction srcs generalizing gg with
  | nil => rfl
  | cons c cs ih =>
    simp only [List.foldl_cons]
    rw [ih]
    unfold updateG
    by_cases hc : i = c <;> simp [hc]

theorem mergeBuild_registers (srcs : List NodeId) (nid : NodeId)
    (f : Val → Val → Val) (g : Graph) :
    ∀ s ∈ srcs, nid ∈ ((mergeBuild srcs f nid g) s).lazyNext := by
  unfold mergeBuild
  generalize (updateG g nid (fun _ => mergeNode f)) = gg
  have keep : ∀ (cs : List NodeId) (gg : Graph) (s : NodeId),
      nid ∈ (gg s).lazyNext →
      nid ∈ ((cs.foldl (fun gg s =>
        updateG gg s (fun nd => { nd with lazyNext := addSet nd.lazyNext nid })) gg) s).lazyNext := by
    intro cs
    induction cs with
    | nil => intro gg s h; exact h
    | cons c cs ih =>
      intro gg s h
      simp only [List.foldl_cons]
      apply ih
      unfold updateG
      by_cases hc : s = c
      · subst hc
        simp only [if_pos rfl]
        exact mem_addSet_of_mem nid h
      · simp [hc, h]
  induction srcs generalizing gg with
  | nil => intro s h; cases h
  | cons c cs ih =>
    intro s hs
    simp only [List.foldl_cons]
    rcases List.mem_cons.mp hs with h | h
    · subst h
      apply keep
      unfold updateG
      simp [mem_addSet_self]
    · exact ih _ s h

/-- **C7.** For every merge node built by `merge(sources)(combine)`:
its functor, applied to a non-empty array, folds the elements
left-to-right with `combine` (so a single-element array yields that
element unchanged), and applied to an empty array it throws rather
than producing a value; the node is registered in every source's
`lazyNext`. -/
theorem merge_fold_spec (srcs : List NodeId) (f : Val → Val → Val)
    (nid : NodeId) (g : Graph) :
    (∀ (x : Val) (xs : List Val),
      ((mergeBuild srcs f nid g) nid).functor (.arr (x :: xs)) = .ok (xs.foldl f x)) ∧
    (∀ x : Val, ((mergeBuild srcs f nid g) nid).functor (.arr [x]) = .ok x) ∧
    ((mergeBuild srcs f nid g) nid).functor (.arr []) = .error () ∧
    (∀ s ∈ srcs, nid ∈ ((mergeBuild srcs f nid g) s).lazyNext) := by
  have hf : ((mergeBuild srcs f nid g) nid).functor = mergeFunctor f := by
    rw [mergeBuild_functor_untouched]
    simp [updateG, mergeNode]
  refine ⟨?_, ?_, ?_, mergeBuild_registers srcs nid f g⟩
  · intro x xs; rw [hf]; rfl
  · intro x; rw [hf]; rfl
  · rw [hf]; rfl

/-! ## C10: a throwing child filter empties the parent's whole node -/

theorem acceptedChildren_append_error (g : Graph) (r : Val) (l2 : List NodeId)
    (h2 : acceptedChildren g r l2 = .error ()) :
    ∀ (l1 : List NodeId) (l : List NodeId),
      acceptedChildren g r l1 = .ok l →
      acceptedChildren g r (l1 ++ l2) = .error () := by
  intro l1
  induction l1 with
  | nil => intro l _; simpa using h2
  | cons c cs ih =>
    intro l h1
    cases hc : acceptChild g r c with
    | error e =>
      simp [acceptedChildren, bind, Except.bind, hc] at h1
    | ok b =>
      cases hcs : acceptedChildren g r cs with
      | error e =>
        simp [acceptedChildren, bind, Except.bind, hc, hcs] at h1
      | ok rest =>
        simp only [List.cons_append, acceptedChildren, bind, Except.bind, hc,
          List.append_eq]
        rw [ih rest hcs]

/-- **C10.** For every node `p` processed by `flow`, if the filter
predicate of any child in `p.next` throws when tested against `p`'s
functor result, the exception is caught by `p`'s own handler, so `p`'s
entire contribution becomes empty — its own observers, updates and
pending merge pairs, and the subtrees of all its children including
non-failing siblings — rather than only the subtree guarded by the
failing predicate. -/
theorem flow_child_filter_error_empties_node (fuel : Nat) (g : Graph)
    (p : NodeId) (v r : Val) (pre : List NodeId) (bad : NodeId)
    (post : List NodeId) (acc : List NodeId)
    (hf : (g p).functor v = .ok r)
    (hn : (g p).next = pre ++ bad :: post)
    (hpre : acceptedChildren g r pre = .ok acc)
    (hbad : acceptChild g r bad = .error ()) :
    flow (fuel + 1) v p g = emptyFS := by
  have hall : acceptedChildren g r (g p).next = .error () := by
    rw [hn]
    refine acceptedChildren_append_error g r (bad :: post) ?_ pre acc hpre
    simp [acceptedChildren, bind, Except.bind, hbad]
  simp only [flow, hf]
  rw [hall]

/-- C10's witness scenario: parent 0 with children 1 (throwing filter)
and 2 (a live observer sibling). -/
def filterThrowGraph : Graph := fun i =>
  if i = 0 then { blankNode with next := [1, 2] }
  else if i = 1 then { blankNode with filter := some throwP }
  else if i = 2 then { blankNode with observers := [.log 2] }
  else blankNode

theorem flow_child_filter_error_empties_node_witness :
    flow 4 (.nat 1) 0 filterThrowGraph = emptyFS :=
  flow_child_filter_error_empties_node 3 filterThrowGraph 0 (.nat 1) (.nat 1)
    [] 1 [2] [] rfl rfl rfl rfl

/-! ## C4: a throwing functor voids exactly its own subtree -/

/-- Remove every occurrence of node id `n` from a child list. -/
def dropId (n : NodeId) : List NodeId → List NodeId
  | [] => []
  | c :: cs => if c = n then dropId n cs else c :: dropId n cs

/-- The graph with node `n` detached from every `next` edge set — the
propagation graph "had the failing subtree been absent". -/
def dropNextEdges (n : NodeId) (g : Graph) : Graph :=
  fun i => { g i with next := dropId n (g i).next }

theorem acceptedChildren_dropNextEdges (n : NodeId) (g : Graph) (r : Val) :
    ∀ l : List NodeId,
      acceptedChildren (dropNextEdges n g) r l = acceptedChildren g r l := by
  intro l
  induction l with
  | nil => rfl
  | cons c cs ih =>
    simp only [acceptedChildren, bind, Except.bind]
    rw [ih]
    rfl

theorem acceptedChildren_dropId (g : Graph) (r : Val) (n : NodeId)
    (hn : acceptChild g r n = .ok true) :
    ∀ l : List NodeId,
      acceptedChildren g r (dropId n l) =
        Except.map (dropId n) (acceptedChildren g r l) := by
  intro l
  induction l with
  | nil => rfl
  | cons c cs ih =>
    by_cases hc : c = n
    · subst hc
      simp only [dropId, if_pos rfl]
      cases hcs : acceptedChildren g r cs with
      | error e =>
        simp [acceptedChildren, bind, Except.bind, hn, hcs, ih, Except.map]
      | ok rest =>
        simp [acceptedChildren, bind, Except.bind, hn, hcs, ih, Except.map,
          pure, Except.pure, dropId]
    · simp only [dropId, if_neg hc]
      cases hac : acceptChild g r c with
      | error e =>
        simp [acceptedChildren, bind, Except.bind, hac, Except.map]
      | ok b =>
        cases hcs : acceptedChildren g r cs with
        | error e =>
          simp [acceptedChildren, bind, Except.bind, hac, hcs, ih, Except.map]
        | ok rest =>
          cases b <;>
            simp [acceptedChildren, bind, Except.bind, hac, hcs, ih, Except.map,
              pure, Except.pure, dropId, hc]

theorem foldl_concatFS_skip (n : NodeId) (f : NodeId → FlowingState)
    (hf : f n = emptyFS) :
    ∀ (l : List NodeId) (init : FlowingState),
      ((dropId n l).map f).foldl concatFS init = (l.map f).foldl concatFS init := by
  intro l
  induction l with
  | nil => intro init; rfl
  | cons c cs ih =>
    intro init
    by_cases hc : c = n
    · subst hc
      simp only [dropId, if_pos rfl, List.map_cons, List.foldl_cons, hf,
        concatFS_emptyFS_right]
      exact ih init
    · simp only [dropId, if_neg hc, List.map_cons, List.foldl_cons]
      exact ih (concatFS init (f c))

/-- **C4.** For every node `n` whose functor throws during `flow`,
`n`'s subtree contributes an empty `FlowingState` (no observers, no
updates, no pending merge pairs) to the propagation, and the overall
result of `flow` from any start node is exactly what it would have
been had the failing node been absent from every `next` edge set (so
sibling subtrees, and all other subtrees of the same `drip` call, are
unaffected).  (`n`'s filter is assumed not to throw itself — a
throwing filter is claim C10's separate failure mode.) -/
theorem flow_functor_error_subtree_isolated (g : Graph) (n : NodeId)
    (hfe : ∀ x, (g n).functor x = .error ())
    (hfi : (g n).filter = none) :
    (∀ (fuel : Nat) (r : Val), flow fuel r n g = emptyFS) ∧
    (∀ (fuel : Nat) (v : Val) (p : NodeId),
      flow fuel v p (dropNextEdges n g) = flow fuel v p g) := by
  have empty1 : ∀ (fuel : Nat) (r : Val), flow fuel r n g = emptyFS := by
    intro fuel r
    cases fuel with
    | zero => rfl
    | succ fuel =>
      simp only [flow]
      rw [hfe r]
  refine ⟨empty1, ?_⟩
  have haccn : ∀ r : Val, acceptChild g r n = .ok true := by
    intro r
    simp only [acceptChild, hfi]
  intro fuel
  induction fuel with
  | zero => intro v p; rfl
  | succ fuel ih =>
    intro v p
    have hfun : (dropNextEdges n g p).functor = (g p).functor := rfl
    have hnext : (dropNextEdges n g p).next = dropId n (g p).next := rfl
    have hsts : ∀ r : Val, streamToFS r (dropNextEdges n g p) = streamToFS r (g p) :=
      fun _ => rfl
    simp only [flow, hfun, hnext]
    cases hr : (g p).functor v with
    | error e => rfl
    | ok r =>
      simp only [acceptedChildren_dropNextEdges,
        acceptedChildren_dropId g r n (haccn r)]
      cases hk : acceptedChildren g r (g p).next with
      | error e => rfl
      | ok kids =>
        simp only [Except.map, hsts, ih]
        exact foldl_concatFS_skip n (fun c => flow fuel r c g) (empty1 fuel r) kids _

/-- C4's witness scenario: parent 0 with a throwing child 1 and a
sibling 2 carrying an observer. -/
def functorThrowGraph : Graph := fun i =>
  if i = 0 then { blankNode with next := [1, 2] }
  else if i = 1 then { blankNode with functor := throwF, observers := [.log 1] }
  else if i = 2 then { blankNode with observers := [.log 2] }
  else blankNode

theorem flow_functor_error_subtree_isolated_witness :
    flow 4 (.nat 3) 1 functorThrowGraph = emptyFS ∧
    flow 4 (.nat 3) 0 (dropNextEdges 1 functorThrowGraph) =
      flow 4 (.nat 3) 0 functorThrowGraph :=
  ⟨(flow_functor_error_subtree_isolated functorThrowGraph 1
      (fun _ => rfl) rfl).1 4 (.nat 3),
   (flow_functor_error_subtree_isolated functorThrowGraph 1
      (fun _ => rfl) rfl).2 4 (.nat 3) 0⟩

/-! ## The observer phase cannot write the heap

With the guard up, a reentrant `drip` throws before touching anything,
and no observer callback of the core writes a hold cell (cells are
private to their hold closures); so the heap seen throughout the
observer phase is the pre-event heap. -/

theorem dripGo_guard_true (fuel : Nat) (t : NodeId) (w : Val) (m : Machine)
    (hp : m.observerPhase = true) :
    ∃ e, dripGo fuel t w m = ⟨.error e, m, []⟩ := by
  cases fuel with
  | zero => exact ⟨.fuelOut, rfl⟩
  | succ fuel => exact ⟨.reentrant, by simp [dripGo, hp]⟩

theorem runAct_guard_true (fuel : Nat) (o : Obs) (v : Val) (m : Machine)
    (hp : m.observerPhase = true) :
    (runAct (dripGo fuel) o v m).mach.observerPhase = true ∧
    (runAct (dripGo fuel) o v m).mach.heap = m.heap ∧
    ∀ c w, Ev.readSeen c w ∈ (runAct (dripGo fuel) o v m).evs → w = m.heap c := by
  cases o with
  | log t => simp [runAct, hp]
  | readCell c => simp [runAct, hp]
  | throwErr => simp [runAct, hp]
  | dripInto t =>
    obtain ⟨e, he⟩ := dripGo_guard_true fuel t v m hp
    simp [runAct, he, hp]
  | shedSwitch p o =>
    simp only [runAct]
    cases hmp : m.heap p with
    | nat k => simp [hp]
    | arr l => simp [hp]
    | node cur =>
      cases v with
      | nat k => simp [hp]
      | arr l => simp [hp]
      | node sNew => simp [hp]

theorem runActs_guard_true (fuel : Nat) (l : List (Obs × Val)) :
    ∀ (m : Machine), m.observerPhase = true →
      (runActs fuel l m).mach.observerPhase = true ∧
      (runActs fuel l m).mach.heap = m.heap ∧
      ∀ c w, Ev.readSeen c w ∈ (runActs fuel l m).evs → w = m.heap c := by
  induction l with
  | nil =>
    intro m hp
    exact ⟨hp, rfl, fun c w h => absurd h (List.not_mem_nil _)⟩
  | cons ov rest ih =>
    intro m hp
    obtain ⟨o, v⟩ := ov
    obtain ⟨h1p, h1h, h1e⟩ := runAct_guard_true fuel o v m hp
    simp only [runActs, runActsWith]
    cases hres : (runAct (dripGo fuel) o v m).res with
    | error e =>
      exact ⟨h1p, h1h, h1e⟩
    | ok u =>
      obtain ⟨h2p, h2h, h2e⟩ := ih ((runAct (dripGo fuel) o v m).mach) h1p
      refine ⟨h2p, h2h.trans h1h, ?_⟩
      intro c w hw
      rcases List.mem_append.mp hw with hw | hw
      · exact h1e c w hw
      · rw [h2e c w hw, h1h]

/-! ## C9: an observer throw skips the rest and commits nothing -/

theorem runActsWith_append_error (drp : NodeId → Val → Machine → DripOut)
    (l2 : List (Obs × Val)) :
    ∀ (l1 : List (Obs × Val)) (m : Machine),
      (runActsWith drp l1 m).res = .error () →
      runActsWith drp (l1 ++ l2) m = runActsWith drp l1 m := by
  intro l1
  induction l1 with
  | nil => intro m h; cases h
  | cons ov rest ih =>
    intro m h
    obtain ⟨o, v⟩ := ov
    simp only [runActsWith, List.cons_append, List.append_eq] at h ⊢
    cases hres : (runAct drp o v m).res with
    | error e => simp [hres]
    | ok u =>
      rw [hres] at h
      simp only at h
      rw [ih ((runAct drp o v m).mach) h]

/-- **C9.** For every `drip` call in which some observer thunk throws
during the observer phase, the remaining observer thunks (the appended
rest of the run) and every update thunk of that call are skipped — the
final heap is the pre-call heap, so no held property is mutated by that
injection — the call returns an empty `FlowingState` instead of the
computed one, and the guard flag is reset to false.  The event trace is
exactly the one produced up to and including the throwing observer. -/
theorem drip_observer_throw_aborts (fuel : Nat) (s : NodeId) (v : Val)
    (m : Machine) (st : FlowingState)
    (hp : m.observerPhase = false)
    (hfl : flowLazy (fuel + 1) v s m.graph = .ok st)
    (hobs : (runActs fuel st.observers { m with observerPhase := true }).res = .error ()) :
    (dripGo (fuel + 1) s v m).res = .ok emptyFS ∧
    (dripGo (fuel + 1) s v m).mach.observerPhase = false ∧
    (dripGo (fuel + 1) s v m).mach.heap = m.heap ∧
    (dripGo (fuel + 1) s v m).evs =
      (runActs fuel st.observers { m with observerPhase := true }).evs ∧
    (∀ l2 : List (Obs × Val),
      runActsWith (dripGo fuel) (st.observers ++ l2) { m with observerPhase := true } =
        runActs fuel st.observers { m with observerPhase := true }) := by
  have hheap := (runActs_guard_true fuel st.observers
    { m with observerPhase := true } rfl).2.1
  simp only [dripGo, hp, Bool.false_eq_true, if_false, hfl]
  simp only [runActs] at hobs hheap
  rw [hobs]
  exact ⟨rfl, rfl, hheap, rfl,
    fun l2 => runActsWith_append_error (dripGo fuel) l2 st.observers
      { m with observerPhase := true } hobs⟩

/-- C9's witness scenario: a stream whose observers log, then throw,
then would log again, with a hold sink that would write cell 0. -/
def observerThrowMachine : Machine :=
  { graph := updateG emptyGraph 0 (fun nd =>
      { nd with observers := [.log 1, .throwErr, .log 2], updates := [0] }),
    heap := fun _ => .nat 7,
    observerPhase := false }

theorem drip_observer_throw_aborts_witness :
    (dripGo 3 0 (.nat 5) observerThrowMachine).res = .ok emptyFS ∧
    (dripGo 3 0 (.nat 5) observerThrowMachine).mach.observerPhase = false ∧
    (dripGo 3 0 (.nat 5) observerThrowMachine).mach.heap = observerThrowMachine.heap ∧
    (dripGo 3 0 (.nat 5) observerThrowMachine).evs =
      (runActs 2 (FlowingState.mk []
        [(.log 1, .nat 5), (.throwErr, .nat 5), (.log 2, .nat 5)]
        [(0, .nat 5)]).observers
        { observerThrowMachine with observerPhase := true }).evs ∧
    (∀ l2 : List (Obs × Val),
      runActsWith (dripGo 2) ((FlowingState.mk []
        [(.log 1, .nat 5), (.throwErr, .nat 5), (.log 2, .nat 5)]
        [(0, .nat 5)]).observers ++ l2)
        { observerThrowMachine with observerPhase := true } =
      runActs 2 (FlowingState.mk []
        [(.log 1, .nat 5), (.throwErr, .nat 5), (.log 2, .nat 5)]
        [(0, .nat 5)]).observers
        { observerThrowMachine with observerPhase := true }) :=
  drip_observer_throw_aborts 2 0 (.nat 5) observerThrowMachine
    (FlowingState.mk []
      [(.log 1, .nat 5), (.throwErr, .nat 5), (.log 2, .nat 5)]
      [(0, .nat 5)])
    rfl (by decide) (by decide)

/-! ## C1: two-phase consistency — observers see the pre-event heap -/

/-- The `hold(s)(init)` + `listen(s)(read the property)` scenario:
stream 0, cell 0 seeded with `init`, an observer that synchronously
reads the held property. -/
def holdListenMachine (init : Val) : Machine :=
  listenOn 0 (.readCell 0) (holdOn 0 0 init ⟨emptyGraph, fun _ => .nat 0, false⟩)

/-- **C1.** For every `drip(s)(v)` call that completes its pure phase
without a top-level error, all observer thunks run before any update
thunk: every property value an observer reads synchronously is the
pre-event one (`readSeen c w` events carry the pre-call heap value of
`c`), and only after a successful observer phase is the final heap the
pre-event heap with the computed update thunks applied.  In particular
for `hold(s)(init)`: the reader returns `init` before any injection,
returns `v` after `drip(s)(v)` returns, and an observer registered on
`s` for that same injection still reads `init`. -/
theorem drip_two_phase_consistency :
    (∀ (fuel : Nat) (s : NodeId) (v : Val) (m : Machine) (st : FlowingState),
      m.observerPhase = false →
      flowLazy (fuel + 1) v s m.graph = .ok st →
      (∀ c w, Ev.readSeen c w ∈ (dripGo (fuel + 1) s v m).evs → w = m.heap c) ∧
      ((runActs fuel st.observers { m with observerPhase := true }).res = .ok () →
        (dripGo (fuel + 1) s v m).mach.heap = applyUpdatesHeap st.updates m.heap ∧
        (dripGo (fuel + 1) s v m).evs =
          (runActs fuel st.observers { m with observerPhase := true }).evs)) ∧
    (∀ init w : Val,
      (holdListenMachine init).heap 0 = init ∧
      (dripGo 1 0 w (holdListenMachine init)).evs = [.readSeen 0 init] ∧
      (dripGo 1 0 w (holdListenMachine init)).mach.heap 0 = w) := by
  constructor
  · intro fuel s v m st hp hfl
    obtain ⟨hgp, hgh, hge⟩ :=
      runActs_guard_true fuel st.observers { m with observerPhase := true } rfl
    simp only [dripGo, hp, Bool.false_eq_true, if_false, hfl]
    simp only [runActs] at hgp hgh hge
    cases hres : (runActsWith (dripGo fuel) st.observers
        { m with observerPhase := true }).res with
    | error e =>
      refine ⟨fun c w hw => hge c w hw, ?_⟩
      intro hok
      simp only [runActs] at hok
      rw [hres] at hok
      cases hok
    | ok u =>
      refine ⟨fun c w hw => hge c w hw, fun _ => ⟨?_, rfl⟩⟩
      simp only [hgh]
  · intro init w
    exact ⟨rfl, rfl, rfl⟩

/-! ## C2: merge grouping — per *round*, not per propagation

`flowLazy` groups pending pairs by target merge node and recurses once
per group.  But a merge node reachable both directly and through
another merge node is reached in **two different rounds** of the lazy
recursion and its functor runs once per round — not exactly once for
the whole propagation.  The diamond below exhibits this. -/

/-- Source 0 feeds merge nodes 1 and 2 via `lazyNext`; merge node 1
also feeds merge node 2 (a chained merge).  Node 2 carries an
observer. -/
def chainMergeGraph : Graph := fun i =>
  if i = 0 then { blankNode with lazyNext := [1, 2] }
  else if i = 1 then { mergeNode addVal with lazyNext := [2] }
  else if i = 2 then { mergeNode addVal with observers := [.log 9] }
  else blankNode

def chainMergeMachine : Machine := ⟨chainMergeGraph, fun _ => .nat 0, false⟩

/-- **C2 (counterexample).** In the diamond `chainMergeGraph`, the
values that reach merge node 2 during the single propagation
`drip(0)(5)` are `5` (directly) and `5` (through merge node 1), yet
node 2's functor is invoked twice, once per round, each time with the
one-element array `[5]` — its downstream observer thunk is bound twice
to `5`, and the observer fires twice in one `drip` call — instead of
exactly once with the single array `[5, 5]` (which would have logged
`addVal 5 5 = 10` once). -/
theorem flowLazy_chained_merge_counterexample :
    flowLazy 6 (.nat 5) 0 chainMergeGraph =
      .ok ⟨[], [(.log 9, .nat 5), (.log 9, .nat 5)], []⟩ ∧
    (dripGo 6 0 (.nat 5) chainMergeMachine).evs =
      [.logged 9 (.nat 5), .logged 9 (.nat 5)] ∧
    flowLazy 6 (.nat 5) 0 chainMergeGraph ≠
      .ok ⟨[], [(.log 9, addVal (.nat 5) (.nat 5))], []⟩ := by
  refine ⟨by decide, by decide, by decide⟩

/-- The values that arrived for merge target `t`, in arrival order. -/
def valuesFor (t : NodeId) : List (NodeId × Val) → List Val
  | [] => []
  | (s, w) :: rest => if s = t then w :: valuesFor t rest else valuesFor t rest

/-- `Map.get` over the grouping association list. -/
def lookupGroup (t : NodeId) : List (NodeId × List Val) → Option (List Val)
  | [] => none
  | (s, vs) :: rest => if s = t then some vs else lookupGroup t rest

theorem insertPair_keys (s : NodeId) (v : Val) :
    ∀ acc : List (NodeId × List Val),
      (insertPair acc s v).map Prod.fst =
        if s ∈ acc.map Prod.fst then acc.map Prod.fst
        else acc.map Prod.fst ++ [s] := by
  intro acc
  induction acc with
  | nil => simp [insertPair]
  | cons p rest ih =>
    obtain ⟨t, vs⟩ := p
    by_cases ht : t = s
    · subst ht
      simp [insertPair]
    · simp only [insertPair, if_neg ht, List.map_cons, ih]
      by_cases hs : s ∈ rest.map Prod.fst
      · simp [hs, Ne.symm ht]
      · simp [hs, Ne.symm ht]

theorem insertPair_lookup (s t : NodeId) (v : Val) :
    ∀ acc : List (NodeId × List Val),
      lookupGroup t (insertPair acc s v) =
        if s = t then some ((lookupGroup t acc).getD [] ++ [v])
        else lookupGroup t acc := by
  intro acc
  induction acc with
  | nil =>
    by_cases hst : s = t <;> simp [insertPair, lookupGroup, hst]
  | cons p rest ih =>
    obtain ⟨u, us⟩ := p
    by_cases hus : u = s
    · subst hus
      by_cases hut : u = t
      · subst hut
        simp [insertPair, lookupGroup]
      · simp [insertPair, lookupGroup, hut]
    · by_cases hut : u = t
      · subst hut
        have hst : ¬s = u := fun e => hus e.symm
        simp [insertPair, lookupGroup, hus, hst]
      · simp [insertPair, lookupGroup, hus, hut, ih]

theorem groupWaiting_fold_lookup (t : NodeId) :
    ∀ (l : List (NodeId × Val)) (acc : List (NodeId × List Val)),
      lookupGroup t (l.foldl (fun acc p => insertPair acc p.1 p.2) acc) =
        if valuesFor t l = [] then lookupGroup t acc
        else some ((lookupGroup t acc).getD [] ++ valuesFor t l) := by
  intro l
  induction l with
  | nil => intro acc; simp [valuesFor]
  | cons p rest ih =>
    intro acc
    obtain ⟨s, w⟩ := p
    simp only [List.foldl_cons, ih]
    by_cases hst : s = t
    · subst hst
      rw [insertPair_lookup]
      simp only [if_pos rfl, valuesFor]
      by_cases hrest : valuesFor s rest = []
      · simp [hrest]
      · simp [hrest]
    · rw [insertPair_lookup]
      simp [valuesFor, hst]

theorem groupWaiting_lookup (t : NodeId) (l : List (NodeId × Val)) :
    lookupGroup t (groupWaiting l) =
      if valuesFor t l = [] then none else some (valuesFor t l) := by
  have h := groupWaiting_fold_lookup t l []
  simpa [groupWaiting, lookupGroup] using h

theorem groupWaiting_keys_nodup :
    ∀ l : List (NodeId × Val), ((groupWaiting l).map Prod.fst).Nodup := by
  have gen : ∀ (l : List (NodeId × Val)) (acc : List (NodeId × List Val)),
      (acc.map Prod.fst).Nodup →
      ((l.foldl (fun acc p => insertPair acc p.1 p.2) acc).map Prod.fst).Nodup := by
    intro l
    induction l with
    | nil => intro acc h; exact h
    | cons p rest ih =>
      intro acc h
      obtain ⟨s, w⟩ := p
      simp only [List.foldl_cons]
      apply ih
      rw [insertPair_keys]
      by_cases hs : s ∈ acc.map Prod.fst
      · simpa [hs] using h
      · simp only [hs, if_neg, ite_false]
        simp [List.nodup_append, h, hs]
  intro l
  exact gen l [] (by simp)

theorem lookupGroup_none_iff (t : NodeId) :
    ∀ acc : List (NodeId × List Val),
      lookupGroup t acc = none ↔ t ∉ acc.map Prod.fst := by
  intro acc
  induction acc with
  | nil => simp [lookupGroup]
  | cons p rest ih =>
    obtain ⟨u, us⟩ := p
    by_cases hut : u = t
    · subst hut
      simp [lookupGroup]
    · simp [lookupGroup, hut, ih, Ne.symm hut]

theorem mem_group_iff_lookup (t : NodeId) (vs : List Val) :
    ∀ acc : List (NodeId × List Val), (acc.map Prod.fst).Nodup →
      ((t, vs) ∈ acc ↔ lookupGroup t acc = some vs) := by
  intro acc
  induction acc with
  | nil => intro _; simp [lookupGroup]
  | cons p rest ih =>
    intro hnd
    obtain ⟨u, us⟩ := p
    simp only [List.map_cons, List.nodup_cons] at hnd
    by_cases hut : u = t
    · subst hut
      constructor
      · intro hmem
        rw [lookupGroup, if_pos rfl]
        rcases List.mem_cons.mp hmem with he | hm
        · injection he with h1 h2
          rw [h2]
        · exact absurd (List.mem_map_of_mem Prod.fst hm) hnd.1
      · intro he
        rw [lookupGroup, if_pos rfl] at he
        injection he with h
        rw [h]
        exact List.mem_cons_self _ _
    · simp only [lookupGroup, if_neg hut, List.mem_cons]
      rw [ih hnd.2]
      constructor
      · rintro (he | hm)
        · injection he with h1 h2
          exact absurd h1.symm hut
        · exact hm
      · exact Or.inr

/-- **C2 (amended).** For every propagation round started by one
`flowLazy` call: the pending `(mergeNode, value)` pairs of that round
are grouped by target merge node into one ordered array each — every
reached merge node appears exactly once in the grouping (the key list
has no duplicates), its array is exactly the values that reached it in
that round in arrival order, and `flowLazy` recurses exactly once per
group with that array.  (A merge node reachable through another merge
node is reached again in a later round and is then invoked again —
the counterexample above — so "exactly once" holds per round, not per
whole propagation.) -/
theorem flowLazy_groups_per_round :
    (∀ l : List (NodeId × Val), ((groupWaiting l).map Prod.fst).Nodup) ∧
    (∀ (l : List (NodeId × Val)) (t : NodeId) (vs : List Val),
      (t, vs) ∈ groupWaiting l → vs = valuesFor t l) ∧
    (∀ (l : List (NodeId × Val)) (t : NodeId),
      t ∈ (groupWaiting l).map Prod.fst ↔ valuesFor t l ≠ []) ∧
    (∀ (fuel : Nat) (v : Val) (s : NodeId) (g : Graph) (subs : List FlowingState),
      (flow (fuel + 1) v s g).waiting ≠ [] →
      (groupWaiting (flow (fuel + 1) v s g).waiting).mapM
          (fun p => flowLazy fuel (.arr p.2) p.1 g) = .ok subs →
      flowLazy (fuel + 1) v s g =
        .ok (subs.foldl concatFS
          ⟨[], (flow (fuel + 1) v s g).observers, (flow (fuel + 1) v s g).updates⟩)) := by
  refine ⟨groupWaiting_keys_nodup, ?_, ?_, ?_⟩
  · intro l t vs hm
    have hl := (mem_group_iff_lookup t vs (groupWaiting l)
      (groupWaiting_keys_nodup l)).mp hm
    rw [groupWaiting_lookup] at hl
    by_cases hv : valuesFor t l = []
    · rw [if_pos hv] at hl
      cases hl
    · rw [if_neg hv] at hl
      exact (Option.some.inj hl).symm
  · intro l t
    constructor
    · intro hm hv
      have hn : lookupGroup t (groupWaiting l) = none := by
        rw [groupWaiting_lookup, if_pos hv]
      exact (lookupGroup_none_iff t (groupWaiting l)).mp hn hm
    · intro hv
      by_contra hm
      have hn := (lookupGroup_none_iff t (groupWaiting l)).mpr hm
      rw [groupWaiting_lookup, if_neg hv] at hn
      exact Option.noConfusion hn
  · intro fuel v s g subs hw hmap
    simp only [flowLazy, hw, ite_false, bind, Except.bind, hmap, pure, Except.pure]

/-! ## C6: `clear` wipes the `next`-reachable subtree — and only it

The source's `clear` recurses over `s.next` but **not** over
`s.lazyNext`; a merge node reachable only through `lazyNext` keeps its
observers and stays live.  The spec's "reachable via next ∪ lazyNext"
is therefore wrong; the correct statement is over `next`-reachability.
-/

/-- Reachability along `next` edges in a fixed graph. -/
inductive ReachN (g : Graph) : NodeId → NodeId → Prop
  | child {n c : NodeId} : c ∈ (g n).next → ReachN g n c
  | step {n c m : NodeId} : c ∈ (g n).next → ReachN g c m → ReachN g n m

/-- Every node is either still its `g0` version or its wiped `g0`
version. -/
def graphLE (g0 g : Graph) : Prop := ∀ x, g x = g0 x ∨ g x = wipeNode (g0 x)

/-- A wiped node's original `next` children are wiped too. -/
def wipedClosed (g0 g : Graph) : Prop :=
  ∀ x, g x = wipeNode (g0 x) → ∀ y ∈ (g0 x).next, g y = wipeNode (g0 y)

theorem wipeNode_idem (nd : Node) : wipeNode (wipeNode nd) = wipeNode nd := rfl

theorem graphLE_refl (g : Graph) : graphLE g g := fun _ => Or.inl rfl

theorem graphLE_trans {g0 g g' : Graph} (h1 : graphLE g0 g) (h2 : graphLE g g') :
    graphLE g0 g' := by
  intro x
  rcases h2 x with h | h
  · rw [h]; exact h1 x
  · rcases h1 x with h' | h'
    · rw [h, h']; exact Or.inr rfl
    · rw [h, h', wipeNode_idem]; exact Or.inr rfl

theorem graphLE_wiped {g0 g g' : Graph} (h2 : graphLE g g') {x : NodeId}
    (hx : g x = wipeNode (g0 x)) : g' x = wipeNode (g0 x) := by
  rcases h2 x with h | h
  · rw [h, hx]
  · rw [h, hx, wipeNode_idem]

theorem graphLE_next_subset {g0 g : Graph} (h : graphLE g0 g) (x : NodeId) :
    ∀ c ∈ (g x).next, c ∈ (g0 x).next := by
  intro c hc
  rcases h x with h' | h'
  · rwa [h'] at hc
  · rw [h'] at hc
    simp [wipeNode] at hc

theorem wipedClosed_refl (g : Graph) : wipedClosed g g := by
  intro x hx y hy
  have hnil : (g x).next = [] := by rw [hx]; rfl
  rw [hnil] at hy
  cases hy

theorem wipedClosed_reach {g0 g' : Graph} (hw : wipedClosed g0 g') :
    ∀ {n m : NodeId}, ReachN g0 n m → g' n = wipeNode (g0 n) →
      g' m = wipeNode (g0 m) := by
  intro n m hr
  induction hr with
  | child hc => intro hn; exact hw _ hn _ hc
  | step hc _ ih => intro hn; exact ih (hw _ hn _ hc)

/-- The invariants that one `clearGo` call maintains: it only wipes
(never revives), it keeps wiped nodes transitively wiped, it wipes its
argument node, and it touches nothing outside the argument and its
`next`-reachable set. -/
theorem clearGo_invariants :
    ∀ (fuel : Nat) (g0 g g' : Graph) (n : NodeId),
      graphLE g0 g → wipedClosed g0 g → clearGo fuel n g = some g' →
      graphLE g g' ∧ wipedClosed g0 g' ∧ g' n = wipeNode (g0 n) ∧
      (∀ x, g' x ≠ g x → x = n ∨ ReachN g0 n x) := by
  intro fuel
  induction fuel with
  | zero =>
    intro g0 g g' n _ _ h
    simp only [clearGo] at h
    exact Option.noConfusion h
  | succ fuel ih =>
    have listLemma : ∀ (g0 : Graph) (l : List NodeId) (g g' : Graph),
        graphLE g0 g → wipedClosed g0 g →
        clearListWith (clearGo fuel) l g = some g' →
        graphLE g g' ∧ wipedClosed g0 g' ∧
        (∀ c ∈ l, g' c = wipeNode (g0 c)) ∧
        (∀ x, g' x ≠ g x → x ∈ l ∨ ∃ c ∈ l, ReachN g0 c x) := by
      intro g0 l
      induction l with
      | nil =>
        intro g g' hle hwc h
        simp only [clearListWith] at h
        injection h with h
        subst h
        exact ⟨graphLE_refl g, hwc,
          fun c hc => absurd hc (List.not_mem_nil c),
          fun x hx => absurd rfl hx⟩
      | cons c cs ihl =>
        intro g g' hle hwc h
        simp only [clearListWith] at h
        cases hc : clearGo fuel c g with
        | none => rw [hc] at h; cases h
        | some g1 =>
          rw [hc, Option.some_bind] at h
          obtain ⟨hm1, hw1, hn1, hf1⟩ := ih g0 g g1 c hle hwc hc
          have hle1 : graphLE g0 g1 := graphLE_trans hle hm1
          obtain ⟨hm2, hw2, hc2, hf2⟩ := ihl g1 g' hle1 hw1 h
          refine ⟨graphLE_trans hm1 hm2, hw2, ?_, ?_⟩
          · intro c' hc'
            rcases List.mem_cons.mp hc' with he | hm
            · subst he
              exact graphLE_wiped hm2 hn1
            · exact hc2 c' hm
          · intro x hx
            by_cases hgx : g1 x = g x
            · rcases hf2 x (by rw [hgx]; exact hx) with hm | ⟨c', hc', hr⟩
              · exact Or.inl (List.mem_cons_of_mem c hm)
              · exact Or.inr ⟨c', List.mem_cons_of_mem c hc', hr⟩
            · rcases hf1 x hgx with he | hr
              · exact Or.inl (he ▸ List.mem_cons_self c cs)
              · exact Or.inr ⟨c, List.mem_cons_self c cs, hr⟩
    intro g0 g g' n hle hwc h
    simp only [clearGo] at h
    cases hl : clearListWith (clearGo fuel) (g n).next g with
    | none => rw [hl] at h; cases h
    | some g1 =>
      rw [hl, Option.map_some'] at h
      injection h with h
      subst h
      obtain ⟨hm1, hw1, hcl, hf1⟩ := listLemma g0 (g n).next g g1 hle hwc hl
      have hle1 : graphLE g0 g1 := graphLE_trans hle hm1
      have keep : ∀ y, g1 y = wipeNode (g0 y) →
          updateG g1 n wipeNode y = wipeNode (g0 y) := by
        intro y hy
        unfold updateG
        by_cases hyn : y = n
        · rw [if_pos hyn, hy, wipeNode_idem]
        · rw [if_neg hyn, hy]
      have hwn : updateG g1 n wipeNode n = wipeNode (g0 n) := by
        unfold updateG
        rw [if_pos rfl]
        rcases hle1 n with hn | hn
        · rw [hn]
        · rw [hn, wipeNode_idem]
      refine ⟨?_, ?_, hwn, ?_⟩
      · intro x
        by_cases hxn : x = n
        · subst hxn
          right
          unfold updateG
          rw [if_pos rfl]
          rcases hm1 x with hx | hx
          · rw [hx]
          · rw [hx, wipeNode_idem]
        · have : updateG g1 n wipeNode x = g1 x := by
            unfold updateG; rw [if_neg hxn]
          rw [this]
          exact hm1 x
      · intro x hx y hy
        by_cases hxn : x = n
        · subst hxn
          rcases hle x with hgx | hgx
          · have hyg : y ∈ (g x).next := by rw [hgx]; exact hy
            exact keep y (hcl y hyg)
          · have hwx : ∀ z ∈ (g0 x).next, g z = wipeNode (g0 z) := hwc x hgx
            exact keep y (graphLE_wiped hm1 (hwx y hy))
        · have hx1 : g1 x = wipeNode (g0 x) := by
            have : updateG g1 n wipeNode x = g1 x := by
              unfold updateG; rw [if_neg hxn]
            rwa [this] at hx
          exact keep y (hw1 x hx1 y hy)
      · intro x hx
        by_cases hxn : x = n
        · exact Or.inl hxn
        · have hx1 : updateG g1 n wipeNode x = g1 x := by
            unfold updateG; rw [if_neg hxn]
          rw [hx1] at hx
          rcases hf1 x hx with hm | ⟨c, hc, hr⟩
          · exact Or.inr (ReachN.child (graphLE_next_subset hle n x hm))
          · exact Or.inr (ReachN.step (graphLE_next_subset hle n c hc) hr)

/-- A node whose four sets are empty contributes nothing to `flow`. -/
theorem flow_inert (g : Graph) (m : NodeId)
    (h1 : (g m).next = []) (h2 : (g m).lazyNext = [])
    (h3 : (g m).observers = []) (h4 : (g m).updates = []) :
    ∀ (fuel : Nat) (v : Val), flow (fuel + 1) v m g = emptyFS := by
  intro fuel v
  simp only [flow, h1]
  cases hf : (g m).functor v with
  | error e => rfl
  | ok r =>
    simp [acceptedChildren, streamToFS, h2, h3, h4, emptyFS]

theorem flowLazy_inert (g : Graph) (m : NodeId)
    (h1 : (g m).next = []) (h2 : (g m).lazyNext = [])
    (h3 : (g m).observers = []) (h4 : (g m).updates = []) :
    ∀ (fuel : Nat) (v : Val), flowLazy (fuel + 1) v m g = .ok emptyFS := by
  intro fuel v
  simp only [flowLazy, flow_inert g m h1 h2 h3 h4 fuel v]
  rfl

/-- Injecting into a node whose four sets are empty (and so are those
of everything it could reach — its `next` is empty) does nothing:
empty result, unchanged machine, empty trace. -/
theorem drip_inert (g : Graph) (hp : CellId → Val) (m : NodeId)
    (h1 : (g m).next = []) (h2 : (g m).lazyNext = [])
    (h3 : (g m).observers = []) (h4 : (g m).updates = []) :
    ∀ (fuel : Nat) (v : Val),
      dripGo (fuel + 1) m v ⟨g, hp, false⟩ = ⟨.ok emptyFS, ⟨g, hp, false⟩, []⟩ := by
  intro fuel v
  simp only [dripGo, Bool.false_eq_true, if_false,
    flowLazy_inert g m h1 h2 h3 h4 fuel v]
  rfl

/-- **C6 (amended).** For every stream node `n`, `clear(n)` empties
the `next`, `lazyNext`, `observers` and `updates` sets of `n` and of
every node reachable from `n` via `next` edges (but **not** the nodes
only reachable through `lazyNext` — see the counterexample), leaving
functors and filters in place; afterwards every `drip` into `n` or
into any formerly `next`-reachable descendant yields an empty
`FlowingState` and changes nothing; and `clear` modifies no other
node, so in particular `n` stays in every upstream parent's edge
sets. -/
theorem clear_wipes_next_reachable (fuel : Nat) (n : NodeId) (g g' : Graph)
    (h : clearGo fuel n g = some g') :
    (g' n = wipeNode (g n)) ∧
    (∀ m, ReachN g n m → g' m = wipeNode (g m)) ∧
    (∀ m, m ≠ n → ¬ ReachN g n m → g' m = g m) ∧
    (∀ p, p ≠ n → ¬ ReachN g n p → n ∈ (g p).next → n ∈ (g' p).next) ∧
    (∀ (m : NodeId) (hp : CellId → Val) (fuel2 : Nat) (v : Val),
      (m = n ∨ ReachN g n m) →
      dripGo (fuel2 + 1) m v ⟨g', hp, false⟩ = ⟨.ok emptyFS, ⟨g', hp, false⟩, []⟩) := by
  obtain ⟨hmono, hwc, hwn, hframe⟩ :=
    clearGo_invariants fuel g g g' n (graphLE_refl g) (wipedClosed_refl g) h
  have hreach : ∀ m, ReachN g n m → g' m = wipeNode (g m) :=
    fun m hr => wipedClosed_reach hwc hr hwn
  have huntouched : ∀ m, m ≠ n → ¬ ReachN g n m → g' m = g m := by
    intro m hmn hmr
    by_contra hne
    rcases hframe m hne with he | hr
    · exact hmn he
    · exact hmr hr
  refine ⟨hwn, hreach, huntouched, ?_, ?_⟩
  · intro p hpn hpr hmem
    rw [huntouched p hpn hpr]
    exact hmem
  · intro m hp fuel2 v hm
    have hwm : g' m = wipeNode (g m) := by
      rcases hm with he | hr
      · rw [he]; exact hwn
      · exact hreach m hr
    have e1 : (g' m).next = [] := by rw [hwm]; rfl
    have e2 : (g' m).lazyNext = [] := by rw [hwm]; rfl
    have e3 : (g' m).observers = [] := by rw [hwm]; rfl
    have e4 : (g' m).updates = [] := by rw [hwm]; rfl
    exact drip_inert g' hp m e1 e2 e3 e4 fuel2 v

/-- C6's witness scenario: the chain 0 → 1 → 2 of live nodes. -/
def clearDemoGraph : Graph := fun i =>
  if i = 0 then { blankNode with next := [1], observers := [.log 0] }
  else if i = 1 then { blankNode with next := [2], observers := [.log 1] }
  else if i = 2 then { blankNode with observers := [.log 2] }
  else blankNode

def clearedDemoGraph : Graph := (clearGo 3 0 clearDemoGraph).getD emptyGraph

theorem clear_wipes_next_reachable_witness :
    clearedDemoGraph 0 = wipeNode (clearDemoGraph 0) ∧
    clearedDemoGraph 1 = wipeNode (clearDemoGraph 1) ∧
    dripGo 4 1 (.nat 3) ⟨clearedDemoGraph, (fun _ => .nat 0), false⟩ =
      ⟨.ok emptyFS, ⟨clearedDemoGraph, (fun _ => .nat 0), false⟩, []⟩ :=
  ⟨(clear_wipes_next_reachable 3 0 clearDemoGraph clearedDemoGraph rfl).1,
   (clear_wipes_next_reachable 3 0 clearDemoGraph clearedDemoGraph rfl).2.1 1
     (ReachN.child (by decide)),
   (clear_wipes_next_reachable 3 0 clearDemoGraph clearedDemoGraph rfl).2.2.2.2 1
     (fun _ => .nat 0) 3 (.nat 3) (Or.inr (ReachN.child (by decide)))⟩

/-- Node 0 feeds merge node 1 only through `lazyNext`; node 1 carries
an observer. -/
def clearLazyGraph : Graph := fun i =>
  if i = 0 then { blankNode with lazyNext := [1] }
  else if i = 1 then { blankNode with observers := [.log 5] }
  else blankNode

def clearedLazyGraph : Graph := (clearGo 9 0 clearLazyGraph).getD emptyGraph

/-- **C6 (counterexample).** Node 1 is reachable from node 0 via
`next ∪ lazyNext` (it is in `lazyNext` of 0), yet after `clear(0)` its
observer set is untouched and a `drip` into it still fires that
observer with a non-empty `FlowingState` — `clear` does not recurse
into `lazyNext`, contradicting the claim's "every node reachable via
next ∪ lazyNext edges" and "every drip into any formerly reachable
descendant yields an empty FlowingState". -/
theorem clear_misses_lazyNext_counterexample :
    clearGo 9 0 clearLazyGraph = some clearedLazyGraph ∧
    1 ∈ (clearLazyGraph 0).lazyNext ∧
    (clearedLazyGraph 1).observers = [.log 5] ∧
    (dripGo 3 1 (.nat 0) ⟨clearedLazyGraph, (fun _ => .nat 0), false⟩).evs =
      [.logged 5 (.nat 0)] ∧
    (dripGo 3 1 (.nat 0) ⟨clearedLazyGraph, (fun _ => .nat 0), false⟩).res ≠
      .ok emptyFS :=
  ⟨rfl, by decide, by decide, by decide, by decide⟩

/-! ## C8: `shed` keeps at most one inner stream wired to its output

Scenario built with `shedBuild`: outer stream-of-streams `ss = 0`,
output node `o = 1` (with a logging observer), property cell `pc = 0`,
inner streams `i1 = 2` and `i2 = 3`. -/

def ssNode : Node := { blankNode with observers := [.shedSwitch 0 1], updates := [0] }

def oNode : Node := { blankNode with observers := [.log 0] }

def innerNode (feeds : Bool) : Node :=
  { blankNode with next := if feeds then [1] else [] }

def shedMachine : Machine :=
  listenOn 1 (.log 0) (shedBuild 0 1 0 ⟨emptyGraph, fun _ => .nat 0, false⟩)

/-- The state invariant of the shed scenario: `cur` is the currently
subscribed inner stream (initially the output node itself), and an
inner stream feeds the output exactly when it is `cur`. -/
def shedInv (cur : NodeId) (m : Machine) : Prop :=
  m.observerPhase = false ∧
  m.heap 0 = .node cur ∧
  m.graph 0 = ssNode ∧
  m.graph 1 = oNode ∧
  m.graph 2 = innerNode (cur == 2) ∧
  m.graph 3 = innerNode (cur == 3) ∧
  (cur = 1 ∨ cur = 2 ∨ cur = 3)

theorem shedInv_init : shedInv 1 shedMachine :=
  ⟨rfl, rfl, rfl, rfl, rfl, rfl, Or.inl rfl⟩

/-- One emission of inner stream `j` through `ss`: the observer runs
first against the *pre-update* property (the previously subscribed
stream `cur`), unwiring `cur` and wiring `j`; only then does the
update phase commit `j` into the property cell. -/
theorem shed_emit (fuel : Nat) (cur j : NodeId) (g : Graph) (h : CellId → Val)
    (hh : h 0 = .node cur)
    (h0 : g 0 = ssNode) :
    dripGo (fuel + 1) 0 (.node j) ⟨g, h, false⟩ =
      ⟨.ok ⟨[], [(.shedSwitch 0 1, .node j)], [(0, .node j)]⟩,
       ⟨updateG (updateG g cur (fun nd => { nd with next := nd.next.erase 1 })) j
          (fun nd => { nd with next := addSet nd.next 1 }),
        applyUpdatesHeap [(0, .node j)] h, false⟩, []⟩ := by
  have hfl : flowLazy (fuel + 1) (.node j) 0 g =
      .ok ⟨[], [(.shedSwitch 0 1, .node j)], [(0, .node j)]⟩ := by
    simp [flowLazy, flow, h0, ssNode, blankNode, parrotF, acceptedChildren,
      streamToFS]
  simp only [dripGo, Bool.false_eq_true, if_false, hfl]
  simp [runActsWith, runAct, hh]

theorem shed_emit_inv (fuel : Nat) (cur j : NodeId) (m : Machine)
    (hInv : shedInv cur m) (hj : j = 2 ∨ j = 3) :
    shedInv j (dripGo (fuel + 1) 0 (.node j) m).mach ∧
    (dripGo (fuel + 1) 0 (.node j) m).evs = [] := by
  obtain ⟨hp, hh, h0, h1, h2, h3, hcur⟩ := hInv
  obtain ⟨g, h, ph⟩ := m
  simp only at hp hh h0 h1 h2 h3
  subst hp
  rw [shed_emit fuel cur j g h hh h0]
  have hj0 : ¬ (0 : NodeId) = j := by
    rcases hj with h' | h' <;> subst h' <;> decide
  have hj1 : ¬ (1 : NodeId) = j := by
    rcases hj with h' | h' <;> subst h' <;> decide
  have hcur0 : ¬ (0 : NodeId) = cur := by
    rcases hcur with h' | h' | h' <;> subst h' <;> decide
  refine ⟨⟨rfl, ?_, ?_, ?_, ?_, ?_, Or.inr hj⟩, rfl⟩
  · simp [applyUpdatesHeap]
  · simp [updateG, hj0, hcur0, h0]
  · rcases hcur with h' | h' | h' <;> subst h' <;>
      simp [updateG, hj1, h1, oNode, blankNode]
  · rcases hj with h' | h' <;> subst h' <;>
      rcases hcur with h' | h' | h' <;> subst h' <;>
      simp [updateG, h1, h2, h3, innerNode, oNode, blankNode, addSet]
  · rcases hj with h' | h' <;> subst h' <;>
      rcases hcur with h' | h' | h' <;> subst h' <;>
      simp [updateG, h1, h2, h3, innerNode, oNode, blankNode, addSet]

/-- The machine after a sequence of inner-stream emissions through
`ss` (each one full `drip` call). -/
def emits (m : Machine) : List NodeId → Machine
  | [] => m
  | j :: rest => emits (dripGo 4 0 (.node j) m).mach rest

theorem shed_invariant_emits :
    ∀ (l : List NodeId), (∀ x ∈ l, x = 2 ∨ x = 3) →
      ∀ (cur : NodeId) (m : Machine), shedInv cur m →
      shedInv (l.foldl (fun _ j => j) cur) (emits m l) := by
  intro l
  induction l with
  | nil => intro _ cur m hInv; exact hInv
  | cons j rest ih =>
    intro hval cur m hInv
    simp only [emits, List.foldl_cons]
    exact ih (fun x hx => hval x (List.mem_cons_of_mem j hx)) j _
      (shed_emit_inv 3 cur j m hInv (hval j (List.mem_cons_self j rest))).1

/-- Injecting a value into inner stream `k` reaches the output's
observer exactly when `k` is the currently subscribed inner stream. -/
theorem shed_drip_inner (fuel : Nat) (cur k : NodeId) (m : Machine)
    (hInv : shedInv cur m) (hk : k = 2 ∨ k = 3) (w : Val) :
    (dripGo (fuel + 2) k w m).evs = if cur = k then [.logged 0 w] else [] := by
  obtain ⟨hp, hh, h0, h1, h2, h3, hcur⟩ := hInv
  obtain ⟨g, h, ph⟩ := m
  simp only at hp hh h0 h1 h2 h3
  subst hp
  have hgk : g k = innerNode (cur == k) := by
    rcases hk with h' | h' <;> subst h' <;> assumption
  by_cases hck : cur = k
  · subst hck
    have hfl : flowLazy (fuel + 2) w cur g = .ok ⟨[], [(.log 0, w)], []⟩ := by
      simp [flowLazy, flow, hgk, h1, innerNode, oNode, blankNode, parrotF,
        acceptedChildren, acceptChild, streamToFS, bind, Except.bind, pure,
        Except.pure, concatFS, beq_self_eq_true]
    simp only [dripGo, Bool.false_eq_true, if_false, hfl]
    simp [runActsWith, runAct]
  · have hb : (cur == k) = false := by
      simp [hck]
    rw [hb] at hgk
    have hfl : flowLazy (fuel + 2) w k g = .ok emptyFS := by
      apply flowLazy_inert g k <;> simp [hgk, innerNode, blankNode]
    simp only [dripGo, Bool.false_eq_true, if_false, hfl]
    simp [runActsWith, hck, emptyFS]

/-- **C8.** For the output node `o` of `shed(ss)`: after every sequence
of inner-stream emissions through `ss`, at most one inner stream has
`o` in its `next` set; after `ss` emits `i1`, a value injected into
`i1` reaches `o` (its observer logs the value); after `ss` subsequently
emits `i2`, a value injected into `i1` no longer reaches `o`, while a
value injected into `i2` does. -/
theorem shed_switches_exclusively :
    (∀ l : List NodeId, (∀ x ∈ l, x = 2 ∨ x = 3) →
      ¬(1 ∈ ((emits shedMachine l).graph 2).next ∧
        1 ∈ ((emits shedMachine l).graph 3).next)) ∧
    (∀ w : Val, (dripGo 4 2 w (emits shedMachine [2])).evs = [.logged 0 w]) ∧
    (∀ w : Val, (dripGo 4 2 w (emits shedMachine [2, 3])).evs = []) ∧
    (∀ w : Val, (dripGo 4 3 w (emits shedMachine [2, 3])).evs = [.logged 0 w]) := by
  have hone : ∀ l : List NodeId, (∀ x ∈ l, x = 2 ∨ x = 3) →
      shedInv (l.foldl (fun _ j => j) 1) (emits shedMachine l) :=
    fun l hval => shed_invariant_emits l hval 1 shedMachine shedInv_init
  have hval1 : ∀ x ∈ ([2] : List NodeId), x = 2 ∨ x = 3 := by
    intro x hx
    simp at hx
    exact Or.inl hx
  have hval2 : ∀ x ∈ ([2, 3] : List NodeId), x = 2 ∨ x = 3 := by
    intro x hx
    simp at hx
    exact hx
  refine ⟨?_, ?_, ?_, ?_⟩
  · intro l hval hmem
    obtain ⟨hm2, hm3⟩ := hmem
    obtain ⟨_, _, _, _, h2, h3, _⟩ := hone l hval
    rw [h2] at hm2
    rw [h3] at hm3
    cases hb2 : ((l.foldl (fun _ j => j) 1 : NodeId) == 2) with
    | false => rw [hb2] at hm2; simp [innerNode] at hm2
    | true =>
      cases hb3 : ((l.foldl (fun _ j => j) 1 : NodeId) == 3) with
      | false => rw [hb3] at hm3; simp [innerNode] at hm3
      | true =>
        have e2 : (l.foldl (fun _ j => j) 1 : NodeId) = 2 := eq_of_beq hb2
        have e3 : (l.foldl (fun _ j => j) 1 : NodeId) = 3 := eq_of_beq hb3
        rw [e2] at e3
        cases e3
  · intro w
    have h := shed_drip_inner 2 2 2 (emits shedMachine [2])
      (hone [2] hval1) (Or.inl rfl) w
    simpa using h
  · intro w
    have h := shed_drip_inner 2 3 2 (emits shedMachine [2, 3])
      (hone [2, 3] hval2) (Or.inl rfl) w
    simpa using h
  · intro w
    have h := shed_drip_inner 2 3 3 (emits shedMachine [2, 3])
      (hone [2, 3] hval2) (Or.inr rfl) w
    simpa using h

end Blooky
